import Mathlib

/-!
Shallow embedding of the `rust-file-organizer-cli` program (src/main.rs) and
proofs about it.

File names are modelled as `List Char` (Rust `OsStr`/`String` contents;
non-UTF-8 names, which the program maps to the same fallbacks as missing
names, are outside the model).  Category names and CLI arguments are `String`.
The Rust `HashMap` used for the category table is modelled as the association
list of its insertions; since `HashMap` iteration order is unspecified, the
classification theorems quantify over permutations of that list.
-/

namespace FileOrganizer

/-- Splits a file name at its last `'.'`: `some (before, after)` when the name
contains a dot, `none` otherwise.  This mirrors the `rsplitn(2, b'.')` split
that Rust's `Path::file_stem` and `Path::extension` are built on. -/
def splitLastDot : List Char → Option (List Char × List Char)
  | [] => none
  | c :: cs =>
    match splitLastDot cs with
    | some (b, a) => some (c :: b, a)
    | none => if c = '.' then some ([], cs) else none

/-- Rust `Path::extension` on a file name: `none` for `".."`, for a dotless
name, and for a name whose only dot is the leading one (hidden files such as
`".bashrc"`); otherwise the portion of the name after the last dot. -/
def rustExtension (name : List Char) : Option (List Char) :=
  if name = ['.', '.'] then none
  else
    match splitLastDot name with
    | none => none
    | some (b, a) => if b = [] then none else some a

/-- Rust `Path::file_stem` on a file name (always defined for a nonempty file
name): the portion before the last dot, or the whole name when
`rustExtension` is `none`. -/
def rustStem (name : List Char) : List Char :=
  if name = ['.', '.'] then name
  else
    match splitLastDot name with
    | none => name
    | some (b, _) => if b = [] then name else b

/-- Function `file_extension_lowercase` from main.rs: lowercase extension of a path,
`""` if none. -/
def file_extension_lowercase (name : List Char) : List Char :=
  match rustExtension name with
  | some e => e.map Char.toLower
  | none => []

/-- Modelled from the spec's words for claim C2: the substring of the file
name after the last `'.'` (the longest dot-free suffix), case-folded to
lowercase; the empty string for a name containing no dot and for a name that
begins with `'.'` and contains no other dot. -/
def specExtensionLower (name : List Char) : List Char :=
  if '.' ∉ name then []
  else if name.head? = some '.' ∧ '.' ∉ name.tail then []
  else (List.takeWhile (fun c => c != '.') name.reverse).reverse.map Char.toLower

/-- Function `build_category_map` from main.rs: the fixed category table, listed in
insertion order. -/
def build_category_map : List (String × List String) :=
  [("Images", ["jpg", "jpeg", "png", "gif", "svg", "bmp", "webp"]),
   ("Documents", ["pdf", "doc", "docx", "txt", "xls", "xlsx", "ppt", "pptx"]),
   ("Videos", ["mp4", "mov", "mkv", "webm", "avi"]),
   ("Audio", ["mp3", "wav", "flac", "aac"]),
   ("Archives", ["zip", "rar", "tar", "gz", "7z"]),
   ("Code", ["rs", "py", "js", "ts", "go", "java", "c", "cpp", "html", "css", "json", "yaml", "yml"])]

/-- Function `category_for_extension` from main.rs: first category of the table whose
extension list contains `ext`, else `"Others"`. -/
def category_for_extension (ext : String) : List (String × List String) → String
  | [] => "Others"
  | (cat, exts) :: rest =>
    if ext ∈ exts then cat else category_for_extension ext rest

/-- The classifier of the walker loop: `category_for_extension` applied to the
lowercased extension, over a given iteration order `t` of the table. -/
def classifyWith (t : List (String × List String)) (name : List Char) : String :=
  category_for_extension ⟨file_extension_lowercase name⟩ t

/-- The classifier with the table in insertion order. -/
def classify (name : List Char) : String :=
  classifyWith build_category_map name

/-- Decimal digit characters. -/
def digit10 : Nat → Char
  | 0 => '0'
  | 1 => '1'
  | 2 => '2'
  | 3 => '3'
  | 4 => '4'
  | 5 => '5'
  | 6 => '6'
  | 7 => '7'
  | 8 => '8'
  | 9 => '9'
  | _ => '*'

/-- Decimal representation of a natural number: the embedding of the integer
`Display` used by `format!` in `copy_file_to_category`. -/
def natRepr (n : Nat) : List Char :=
  if n = 0 then ['0'] else ((Nat.digits 10 n).map digit10).reverse

/-- The collision candidate `format!("{}_{}{}", stem, count, ext)` built by
`copy_file_to_category`. -/
def candidateName (stem extDot : List Char) (n : Nat) : List Char :=
  stem ++ '_' :: (natRepr n ++ extDot)

/-- The source extension with its leading dot, or empty: the `ext` string
`format!(".{}", s)` / `""` computed by `copy_file_to_category`. -/
def extWithDot (name : List Char) : List Char :=
  match rustExtension name with
  | some e => '.' :: e
  | none => []

/-- The existence-check loop of `copy_file_to_category`, with explicit fuel.
The Rust loop is unbounded; `resolveDestName` supplies enough fuel for the
loop to reach a free name (`findFreshAux_ne_none`). -/
def findFreshAux (names : List (List Char)) (stem extDot : List Char) :
    Nat → Nat → Option (List Char)
  | 0, _ => none
  | fuel + 1, count =>
    if candidateName stem extDot count ∈ names then
      findFreshAux names stem extDot fuel (count + 1)
    else some (candidateName stem extDot count)

/-- The destination-name resolution of `copy_file_to_category`: the base file
name when not yet present in the destination directory, else the first
`stem_N<ext>` (N = 1, 2, ...) not present. -/
def resolveDestName (names : List (List Char)) (name : List Char) : List Char :=
  if name ∈ names then
    (findFreshAux names (rustStem name) (extWithDot name) (names.length + 1) 1).getD name
  else name

/-- Function `copy_file_to_category` from main.rs over the model directory state: a
category directory is the list of (file name, content) pairs it holds, in
creation order; a successful `fs::copy` to the fresh destination appends a
pair.  Returns the destination name and the updated directory. -/
def copy_file_to_category (name : List Char) (content : Nat)
    (dir : List (List Char × Nat)) : List Char × List (List Char × Nat) :=
  let dest := resolveDestName (dir.map Prod.fst) name
  (dest, dir ++ [(dest, content)])

/-- Repeated copies into one category directory: the calls of
`copy_file_to_category` a run makes for one category, in order. -/
def copySequence (files : List (List Char × Nat))
    (dir : List (List Char × Nat)) : List (List Char × Nat) :=
  match files with
  | [] => dir
  | (name, content) :: rest =>
    copySequence rest (copy_file_to_category name content dir).2

/-- An entry yielded by the `read_dir` iteration, as the walker loop in
`main` distinguishes them: an `Err` from the iterator, an entry whose
`file_type()` call fails, a directory, a symlink, or a regular
(non-directory, non-symlink) file.  For a file, `fsOk` is the filesystem
oracle saying whether creating its category directory and copying it would
succeed. -/
inductive DirEntry where
  | readErr : DirEntry
  | typeErr : DirEntry
  | subdir : DirEntry
  | symlink : DirEntry
  | file (name : List Char) (content : Nat) (fsOk : Bool) : DirEntry
deriving DecidableEq

/-- Whether a walk entry is a regular, non-symlink file. -/
def DirEntry.isRegularFile : DirEntry → Bool
  | .file _ _ _ => true
  | _ => false

/-- The `counters` map of `main`, in insertion order. -/
def initCounters : List (String × Nat) :=
  [("Images", 0), ("Documents", 0), ("Videos", 0), ("Audio", 0),
   ("Archives", 0), ("Code", 0), ("Others", 0), ("Errors", 0)]

/-- The statement `*counters.get_mut(key).unwrap() += 1` from `main`: `some` of the updated
map when the key is present, `none` when the `unwrap` would panic. -/
def bump : List (String × Nat) → String → Option (List (String × Nat))
  | [], _ => none
  | (k, v) :: rest, key =>
    if k = key then some ((k, v + 1) :: rest)
    else (bump rest key).map fun r => (k, v) :: r

/-- The value of a counter (0 when the key is absent). -/
def getCount : List (String × Nat) → String → Nat
  | [], _ => 0
  | (k, v) :: rest, key => if k = key then v else getCount rest key

/-- Sum of all counters other than `"Errors"`. -/
def sumExclErrors (cs : List (String × Nat)) : Nat :=
  ((cs.filter fun p => p.1 != "Errors").map Prod.snd).sum

/-- State of a run: the counters, the contents of every category
subdirectory of the scan root (name/content pairs in creation order), and
the regular files directly inside the scan root.  The program's only
filesystem writes are `create_dir_all` on category directories and
`fs::copy` into them, so those are the mutable parts; the root file list is
carried to state frame properties. -/
structure RunState where
  counters : List (String × Nat)
  dirs : String → List (List Char × Nat)
  root : List (List Char × Nat)

/-- Pointwise update of the category-directory map. -/
def updateDirs (dirs : String → List (List Char × Nat)) (cat : String)
    (newDir : List (List Char × Nat)) : String → List (List Char × Nat) :=
  fun c2 => if c2 = cat then newDir else dirs c2

/-- One iteration of the walker loop in `main`.  `none` models a panic of a
counter `unwrap`. -/
def processEntry (dryRun : Bool) (σ : RunState) : DirEntry → Option RunState
  | .readErr => (bump σ.counters "Errors").map fun c => { σ with counters := c }
  | .typeErr => (bump σ.counters "Errors").map fun c => { σ with counters := c }
  | .subdir => some σ
  | .symlink => some σ
  | .file name content fsOk =>
    let cat := classify name
    if dryRun then
      (bump σ.counters cat).map fun c => { σ with counters := c }
    else if fsOk then
      let newDir := (copy_file_to_category name content (σ.dirs cat)).2
      (bump σ.counters cat).map fun c =>
        { σ with counters := c, dirs := updateDirs σ.dirs cat newDir }
    else
      (bump σ.counters "Errors").map fun c => { σ with counters := c }

/-- The walker loop of `main` over the `read_dir` entries. -/
def runEntries (dryRun : Bool) : List DirEntry → RunState → Option RunState
  | [], σ => some σ
  | e :: es, σ => (processEntry dryRun σ e).bind (runEntries dryRun es)

/-- The state at the start of a run: fresh counters, the initial category
subdirectories and the scan root's regular files. -/
def initState (dirs0 : String → List (List Char × Nat))
    (root0 : List (List Char × Nat)) : RunState :=
  { counters := initCounters, dirs := dirs0, root := root0 }

/-- A whole organizing run.  `runEntries` never returns `none`
(`counters_never_panic`), so the `getD` default is never taken. -/
def runOrganize (dryRun : Bool) (es : List DirEntry)
    (dirs0 : String → List (List Char × Nat))
    (root0 : List (List Char × Nat)) : RunState :=
  (runEntries dryRun es (initState dirs0 root0)).getD (initState dirs0 root0)

/-- The counters map has the run's fixed key set. -/
def goodKeys (σ : RunState) : Prop :=
  σ.counters.map Prod.fst = initCounters.map Prod.fst

/-- Whether an entry gets a category counter increment: in dry-run mode
every regular file does, otherwise the regular files whose directory
creation and copy succeed. -/
def DirEntry.counted (e : DirEntry) (dryRun : Bool) : Bool :=
  match e with
  | .file _ _ ok => dryRun || ok
  | _ => false

/-- The number of entries of a walk that get a category counter
increment. -/
def countedEntries (dryRun : Bool) (es : List DirEntry) : Nat :=
  (es.filter fun e => e.counted dryRun).length

/-- The number of regular, non-symlink entries directly inside the scan
root. -/
def regularEntriesCount (es : List DirEntry) : Nat :=
  (es.filter DirEntry.isRegularFile).length

/-- The per-entry failures of the walk: an `Err` from the iterator, a failed
`file_type()` call, or (outside dry-run) a failed directory creation or
copy. -/
def failingEntry (dryRun : Bool) (e : DirEntry) : Prop :=
  e = .readErr ∨ e = .typeErr ∨
    ∃ n c, e = .file n c false ∧ dryRun = false

/-- The dry-run flag scan of `main`:
`args.iter().any(|a| a == "--dry-run" || a == "-n")`, over the whole
argument vector including the program name `args[0]`. -/
def dryFlag (args : List String) : Bool :=
  args.any fun a => a == "--dry-run" || a == "-n"

/-- The folder-path argument `args[1]` of `main`; `none` when
`args.len() < 2` (the usage-and-exit case). -/
def folderArg (args : List String) : Option String :=
  args[1]?

/-- The environment `main` runs against: the argument vector and the
filesystem oracles — `fs::canonicalize` (with `none` for an error),
`is_dir`, `fs::read_dir` (with `none` for an error, otherwise the entry
stream), and the initial category directories and root files. -/
structure Env where
  args : List String
  canonicalize : String → Option String
  isDir : String → Bool
  readDir : String → Option (List DirEntry)
  dirs0 : String → List (List Char × Nat)
  root0 : List (List Char × Nat)

/-- The outcomes of `main`: the fatal pre-walk exits via
`std::process::exit(1)` — `usage` after the usage text on standard output,
`invalidPath` / `notDirectory` / `readDirFailed` after an error message on
standard error — or completion of the walk with the final state and exit
status 0. -/
inductive Outcome where
  | usage : Outcome
  | invalidPath : Outcome
  | notDirectory : Outcome
  | readDirFailed : Outcome
  | completed (final : RunState) : Outcome

/-- Function `main` from main.rs: argument check, `fs::canonicalize`, `is_dir`
check, `fs::read_dir`, then the walker loop over the entries. -/
def mainRun (env : Env) : Outcome :=
  match folderArg env.args with
  | none => .usage
  | some folder =>
    match env.canonicalize folder with
    | none => .invalidPath
    | some canon =>
      if env.isDir canon then
        match env.readDir canon with
        | none => .readDirFailed
        | some es =>
          .completed (runOrganize (dryFlag env.args) es env.dirs0 env.root0)
      else .notDirectory

/-- Exit status of an outcome (`1` from `std::process::exit(1)`, `0` on
falling off the end of `main`). -/
def exitCode : Outcome → Nat
  | .completed _ => 0
  | _ => 1

/-- The category directories after `main` ran: the initial ones when the
process exited before the walk, the final ones on completion. -/
def finalDirs (env : Env) : String → List (List Char × Nat) :=
  match mainRun env with
  | .completed σ => σ.dirs
  | _ => env.dirs0

/-- The scan root's files after `main` ran. -/
def finalRoot (env : Env) : List (List Char × Nat) :=
  match mainRun env with
  | .completed σ => σ.root
  | _ => env.root0

/-- A sample environment whose invocation misses the folder argument. -/
def usageEnv : Env :=
  { args := ["file_organizer"], canonicalize := fun _ => none, isDir := fun _ => false, readDir := fun _ => none, dirs0 := fun _ => [], root0 := [] }

theorem splitLastDot_eq_none {xs : List Char} :
    splitLastDot xs = none ↔ '.' ∉ xs := by
  induction xs with
  | nil => simp [splitLastDot]
  | cons c cs ih =>
    simp only [splitLastDot]
    cases hs : splitLastDot cs with
    | some p =>
      have hdot : '.' ∈ cs := by
        by_contra hn
        rw [ih.mpr hn] at hs
        cases hs
      simp [hdot]
    | none =>
      have hnd : '.' ∉ cs := ih.mp hs
      by_cases hc : c = '.'
      · subst hc
        simp
      · simp [hc, hnd, Ne.symm hc]

theorem splitLastDot_eq_some {xs b a : List Char}
    (h : splitLastDot xs = some (b, a)) :
    xs = b ++ '.' :: a ∧ '.' ∉ a := by
  induction xs generalizing b a with
  | nil => cases h
  | cons c cs ih =>
    simp only [splitLastDot] at h
    cases hs : splitLastDot cs with
    | some p =>
      obtain ⟨b', a'⟩ := p
      rw [hs] at h
      simp only [Option.some.injEq, Prod.mk.injEq] at h
      obtain ⟨hb, ha⟩ := h
      obtain ⟨hcs, hna⟩ := ih hs
      subst hb; subst ha
      exact ⟨by rw [hcs]; rfl, hna⟩
    | none =>
      rw [hs] at h
      by_cases hc : c = '.'
      · rw [if_pos hc] at h
        simp only [Option.some.injEq, Prod.mk.injEq] at h
        obtain ⟨hb, ha⟩ := h
        subst hb; subst ha; subst hc
        exact ⟨rfl, splitLastDot_eq_none.mp hs⟩
      · rw [if_neg hc] at h
        cases h

theorem takeWhile_append_dot {l r : List Char} (h : '.' ∉ l) :
    List.takeWhile (fun c => c != '.') (l ++ '.' :: r) = l := by
  induction l with
  | nil => simp [List.takeWhile]
  | cons x xs ih =>
    have hx : x ≠ '.' := fun hx => h (by simp [hx])
    have hxs : '.' ∉ xs := fun hm => h (by simp [hm])
    have hbx : (x != '.') = true := by simp [bne_iff_ne, hx]
    simp [List.takeWhile, hbx, ih hxs]

/-- C2: for every file name, the extension extracted by
`file_extension_lowercase` equals the substring of the name after the last
`'.'` case-folded to lowercase, and is the empty string for names with no
extension, including names that begin with `'.'` and contain no other `'.'`
(as described by `specExtensionLower`). -/
theorem file_extension_lowercase_eq_spec (name : List Char) :
    file_extension_lowercase name = specExtensionLower name := by
  by_cases hdd : name = ['.', '.']
  · subst hdd
    decide
  · cases hs : splitLastDot name with
    | none =>
      have he : rustExtension name = none := by
        simp [rustExtension, hdd, hs]
      have hnd : '.' ∉ name := splitLastDot_eq_none.mp hs
      simp [file_extension_lowercase, he, specExtensionLower, hnd]
    | some p =>
      obtain ⟨b, a⟩ := p
      obtain ⟨hname, hna⟩ := splitLastDot_eq_some hs
      by_cases hb : b = []
      · have he : rustExtension name = none := by
          simp [rustExtension, hdd, hs, hb]
        subst hb
        simp only [List.nil_append] at hname
        subst hname
        simp [file_extension_lowercase, he, specExtensionLower, hna]
      · have he : rustExtension name = some a := by
          simp [rustExtension, hdd, hs, hb]
        obtain ⟨x, b', hbx⟩ := List.exists_cons_of_ne_nil hb
        subst hbx
        subst hname
        simp only [file_extension_lowercase, he, specExtensionLower]
        have hmem : '.' ∈ (x :: b') ++ '.' :: a := by simp
        rw [if_neg (by simpa using hmem)]
        have hcond : ¬(((x :: b') ++ '.' :: a).head? = some '.' ∧
            '.' ∉ ((x :: b') ++ '.' :: a).tail) := by
          rintro ⟨hhd, htl⟩
          simp only [List.cons_append, List.head?_cons, Option.some.injEq] at hhd
          simp only [List.cons_append, List.tail_cons] at htl
          exact htl (by simp)
        rw [if_neg hcond]
        have hrev : ((x :: b') ++ '.' :: a).reverse
            = a.reverse ++ '.' :: (x :: b').reverse := by
          simp [List.reverse_append]
        rw [hrev, takeWhile_append_dot (by simpa using hna)]
        simp

theorem category_for_extension_of_mem {ext : String}
    {t : List (String × List String)} {cat : String} {exts : List String}
    (hmem : (cat, exts) ∈ t) (hin : ext ∈ exts)
    (huniq : ∀ c e, (c, e) ∈ t → ext ∈ e → c = cat) :
    category_for_extension ext t = cat := by
  induction t with
  | nil => cases hmem
  | cons p rest ih =>
    obtain ⟨c0, e0⟩ := p
    simp only [category_for_extension]
    by_cases h0 : ext ∈ e0
    · rw [if_pos h0]
      exact huniq c0 e0 (List.mem_cons_self _ _) h0
    · rw [if_neg h0]
      rcases List.mem_cons.mp hmem with heq | htail
      · exfalso
        have : exts = e0 := (Prod.mk.injEq _ _ _ _ ▸ heq.symm).2.symm ▸ rfl
        exact h0 (by
          cases heq
          exact hin)
      · exact ih htail fun c e hce hine =>
          huniq c e (List.mem_cons_of_mem _ hce) hine

theorem category_for_extension_of_not_mem {ext : String}
    {t : List (String × List String)}
    (h : ∀ c e, (c, e) ∈ t → ext ∉ e) :
    category_for_extension ext t = "Others" := by
  induction t with
  | nil => rfl
  | cons p rest ih =>
    obtain ⟨c0, e0⟩ := p
    simp only [category_for_extension]
    rw [if_neg (h c0 e0 (List.mem_cons_self _ _))]
    exact ih fun c e hce => h c e (List.mem_cons_of_mem _ hce)

/-- C1: over any iteration order of the fixed category table, if a file's
lowercased extension belongs to exactly one category's extension set then the
classifier returns that category, and if it belongs to no category's set
(including the empty extension) then the classifier returns `"Others"`. -/
theorem classifyWith_unique_and_default (t : List (String × List String))
    (hperm : t.Perm build_category_map) (name : List Char) :
    (∀ cat exts, (cat, exts) ∈ t → (⟨file_extension_lowercase name⟩ : String) ∈ exts →
      (∀ c e, (c, e) ∈ t → (⟨file_extension_lowercase name⟩ : String) ∈ e → c = cat) →
      classifyWith t name = cat) ∧
    ((∀ c e, (c, e) ∈ t → (⟨file_extension_lowercase name⟩ : String) ∉ e) →
      classifyWith t name = "Others") := by
  constructor
  · intro cat exts hmem hin huniq
    exact category_for_extension_of_mem hmem hin huniq
  · intro habs
    exact category_for_extension_of_not_mem habs

/-- Witness for C1 at concrete inputs: `"photo.JPG"` classifies as
`"Images"`, and `"notes"` (no extension) classifies as `"Others"`. -/
theorem classifyWith_unique_and_default_witness :
    classifyWith build_category_map "photo.JPG".toList = "Images" ∧
    classifyWith build_category_map "notes".toList = "Others" := by
  constructor
  · exact (classifyWith_unique_and_default build_category_map (List.Perm.refl _)
      "photo.JPG".toList).1 "Images" ["jpg", "jpeg", "png", "gif", "svg", "bmp", "webp"]
      (by decide) (by decide)
      (by intro c e hce hin; fin_cases hce <;> revert hin <;> decide)
  · exact (classifyWith_unique_and_default build_category_map (List.Perm.refl _)
      "notes".toList).2
      (by intro c e hce; fin_cases hce <;> decide)

theorem digit10_inj {a b : Nat} (ha : a < 10) (hb : b < 10)
    (h : digit10 a = digit10 b) : a = b := by
  interval_cases a <;> interval_cases b <;> revert h <;> decide

theorem map_digit10_inj : ∀ {l1 l2 : List Nat}, (∀ d ∈ l1, d < 10) →
    (∀ d ∈ l2, d < 10) → l1.map digit10 = l2.map digit10 → l1 = l2 := by
  intro l1
  induction l1 with
  | nil =>
    intro l2 _ _ h
    cases l2 with
    | nil => rfl
    | cons e es => simp at h
  | cons d ds ih =>
    intro l2 h1 h2 h
    cases l2 with
    | nil => simp at h
    | cons e es =>
      simp only [List.map_cons, List.cons.injEq] at h
      have hde : d = e := digit10_inj (h1 d (by simp)) (h2 e (by simp)) h.1
      have hes : ds = es := ih (fun x hx => h1 x (by simp [hx]))
        (fun x hx => h2 x (by simp [hx])) h.2
      rw [hde, hes]

theorem natRepr_digits {n : Nat} (hn : n ≠ 0) :
    natRepr n = ((Nat.digits 10 n).map digit10).reverse := by
  simp [natRepr, hn]

theorem natRepr_inj {n m : Nat} (h : natRepr n = natRepr m) : n = m := by
  have hd : ∀ k : Nat, ∀ d ∈ Nat.digits 10 k, d < 10 := by
    intro k d hdm
    exact Nat.digits_lt_base (by norm_num) hdm
  by_cases hn : n = 0 <;> by_cases hm : m = 0
  · rw [hn, hm]
  · exfalso
    rw [hn] at h
    simp only [natRepr, if_pos rfl, if_neg hm] at h
    have h' : List.map digit10 [0] = List.map digit10 (Nat.digits 10 m) := by
      have := congrArg List.reverse h
      simpa [digit10] using this
    have : ([0] : List Nat) = Nat.digits 10 m :=
      map_digit10_inj (by decide) (hd m) h'
    have hm0 : m = 0 := by
      have := Nat.ofDigits_digits 10 m
      rw [← this, ← ‹([0] : List Nat) = Nat.digits 10 m›]
      simp [Nat.ofDigits]
    exact hm hm0
  · exfalso
    rw [hm] at h
    simp only [natRepr, if_pos rfl, if_neg hn] at h
    have h' : List.map digit10 (Nat.digits 10 n) = List.map digit10 [0] := by
      have := congrArg List.reverse h
      simpa [digit10] using this
    have : Nat.digits 10 n = ([0] : List Nat) :=
      map_digit10_inj (hd n) (by decide) h'
    have hn0 : n = 0 := by
      have := Nat.ofDigits_digits 10 n
      rw [← this, ‹Nat.digits 10 n = ([0] : List Nat)›]
      simp [Nat.ofDigits]
    exact hn hn0
  · rw [natRepr_digits hn, natRepr_digits hm] at h
    have h' := List.reverse_injective h
    have := map_digit10_inj (fun d hdm => Nat.digits_lt_base (by norm_num) hdm)
      (fun d hdm => Nat.digits_lt_base (by norm_num) hdm) h'
    exact Nat.digits_inj_iff.mp this

theorem candidateName_inj {stem extDot : List Char} {n m : Nat}
    (h : candidateName stem extDot n = candidateName stem extDot m) : n = m := by
  unfold candidateName at h
  have h1 : '_' :: (natRepr n ++ extDot) = '_' :: (natRepr m ++ extDot) :=
    List.append_cancel_left h
  have h2 : natRepr n ++ extDot = natRepr m ++ extDot := by
    injection h1
  exact natRepr_inj (List.append_cancel_right h2)

theorem findFreshAux_mem_of_none {names : List (List Char)} {stem extDot : List Char} :
    ∀ fuel count, findFreshAux names stem extDot fuel count = none →
    ∀ i, i < fuel → candidateName stem extDot (count + i) ∈ names := by
  intro fuel
  induction fuel with
  | zero => intro count _ i hi; omega
  | succ f ih =>
    intro count h i hi
    simp only [findFreshAux] at h
    by_cases hc : candidateName stem extDot count ∈ names
    · rw [if_pos hc] at h
      cases i with
      | zero => simpa using hc
      | succ j =>
        have := ih (count + 1) h j (by omega)
        have harith : count + 1 + j = count + (j + 1) := by omega
        rwa [harith] at this
    · rw [if_neg hc] at h
      cases h

theorem findFreshAux_some_spec {names : List (List Char)} {stem extDot : List Char} :
    ∀ fuel count r, findFreshAux names stem extDot fuel count = some r →
    r ∉ names ∧ ∃ i, i < fuel ∧ r = candidateName stem extDot (count + i) ∧
      ∀ j, j < i → candidateName stem extDot (count + j) ∈ names := by
  intro fuel
  induction fuel with
  | zero => intro count r h; cases h
  | succ f ih =>
    intro count r h
    simp only [findFreshAux] at h
    by_cases hc : candidateName stem extDot count ∈ names
    · rw [if_pos hc] at h
      obtain ⟨hr, i, hif, hri, hprev⟩ := ih (count + 1) r h
      refine ⟨hr, i + 1, by omega, ?_, ?_⟩
      · have harith : count + (i + 1) = count + 1 + i := by omega
        rw [harith]
        exact hri
      · intro j hj
        cases j with
        | zero => simpa using hc
        | succ k =>
          have := hprev k (by omega)
          have harith : count + 1 + k = count + (k + 1) := by omega
          rwa [harith] at this
    · rw [if_neg hc] at h
      obtain rfl : candidateName stem extDot count = r := by
        injection h
      exact ⟨hc, 0, by omega, by simp, by omega⟩

theorem findFreshAux_ne_none (names : List (List Char)) (stem extDot : List Char) :
    findFreshAux names stem extDot (names.length + 1) 1 ≠ none := by
  intro h
  have hmem := @findFreshAux_mem_of_none names stem extDot (names.length + 1) 1 h
  have hinj : Function.Injective (fun i : Nat => candidateName stem extDot (1 + i)) := by
    intro i j hij
    have := candidateName_inj hij
    omega
  have hsub : (Finset.range (names.length + 1)).image
      (fun i => candidateName stem extDot (1 + i)) ⊆ names.toFinset := by
    intro x hx
    obtain ⟨i, hi, rfl⟩ := Finset.mem_image.mp hx
    exact List.mem_toFinset.mpr (hmem i (Finset.mem_range.mp hi))
  have hcard := Finset.card_le_card hsub
  rw [Finset.card_image_of_injective _ hinj, Finset.card_range] at hcard
  have := names.toFinset_card_le
  omega

theorem resolveDestName_not_mem (names : List (List Char)) (name : List Char) :
    resolveDestName names name ∉ names := by
  unfold resolveDestName
  by_cases hn : name ∈ names
  · rw [if_pos hn]
    cases hf : findFreshAux names (rustStem name) (extWithDot name)
        (names.length + 1) 1 with
    | none => exact absurd hf (findFreshAux_ne_none names _ _)
    | some r =>
      simp only [Option.getD_some]
      exact (findFreshAux_some_spec _ _ _ hf).1
  · rw [if_neg hn]
    exact hn

theorem copySequence_eq_append (files : List (List Char × Nat)) :
    ∀ dir, ∃ w, copySequence files dir = dir ++ w := by
  induction files with
  | nil => intro dir; exact ⟨[], by simp [copySequence]⟩
  | cons p rest ih =>
    intro dir
    obtain ⟨n, c⟩ := p
    obtain ⟨w, hw⟩ := ih (copy_file_to_category n c dir).2
    refine ⟨(resolveDestName (dir.map Prod.fst) n, c) :: w, ?_⟩
    show copySequence rest (copy_file_to_category n c dir).2 = _
    rw [hw]
    simp [copy_file_to_category]

theorem copySequence_nodup (files : List (List Char × Nat)) :
    ∀ dir, (dir.map Prod.fst).Nodup →
    ((copySequence files dir).map Prod.fst).Nodup := by
  induction files with
  | nil => intro dir h; exact h
  | cons p rest ih =>
    intro dir h
    obtain ⟨n, c⟩ := p
    simp only [copySequence]
    apply ih
    have hdest := resolveDestName_not_mem (dir.map Prod.fst) n
    simp only [copy_file_to_category, List.map_append, List.map_cons,
      List.map_nil]
    rw [List.nodup_append]
    exact ⟨h, List.nodup_singleton _, by simpa [List.disjoint_singleton] using hdest⟩

/-- C3: destination resolution is collision-free.  A base name not present in
the target directory is kept; an occupied base name becomes `stem_N<ext>` for
the first N = 1, 2, ... whose candidate is absent (every smaller candidate
being present), with the original extension and its leading dot preserved by
`extWithDot`; the resolved name is never already present; and a sequence of
copies into one directory only appends (never overwriting a previously
present file) and yields pairwise-distinct file names. -/
theorem resolveDestName_collision_free
    (names : List (List Char)) (name : List Char)
    (dir files : List (List Char × Nat))
    (hnodup : (dir.map Prod.fst).Nodup) :
    (name ∉ names → resolveDestName names name = name) ∧
    (name ∈ names → ∃ N, 1 ≤ N ∧
      resolveDestName names name = candidateName (rustStem name) (extWithDot name) N ∧
      candidateName (rustStem name) (extWithDot name) N ∉ names ∧
      ∀ k, 1 ≤ k → k < N → candidateName (rustStem name) (extWithDot name) k ∈ names) ∧
    resolveDestName names name ∉ names ∧
    (∃ written, copySequence files dir = dir ++ written) ∧
    ((copySequence files dir).map Prod.fst).Nodup := by
  refine ⟨?_, ?_, resolveDestName_not_mem names name,
    copySequence_eq_append files dir, copySequence_nodup files dir hnodup⟩
  · intro hn
    simp [resolveDestName, hn]
  · intro hn
    unfold resolveDestName
    rw [if_pos hn]
    cases hf : findFreshAux names (rustStem name) (extWithDot name)
        (names.length + 1) 1 with
    | none => exact absurd hf (findFreshAux_ne_none names _ _)
    | some r =>
      obtain ⟨hr, i, _, hri, hprev⟩ := findFreshAux_some_spec _ _ _ hf
      refine ⟨1 + i, by omega, by simp only [Option.getD_some]; exact hri, ?_, ?_⟩
      · rw [← hri]
        exact hr
      · intro k hk1 hki
        have := hprev (k - 1) (by omega)
        have harith : 1 + (k - 1) = k := by omega
        rwa [harith] at this

/-- Witness for C3 at concrete inputs: copying `"a.jpg"` into a directory
already holding `"a.jpg"` resolves to `"a_1.jpg"`, and two successive copies
of `"a.jpg"` into an empty directory produce distinct names. -/
theorem resolveDestName_collision_free_witness :
    resolveDestName ["a.jpg".toList] "a.jpg".toList ∉ ["a.jpg".toList] ∧
    ((copySequence [("a.jpg".toList, 5), ("a.jpg".toList, 6)] []).map
      Prod.fst).Nodup :=
  ⟨(resolveDestName_collision_free ["a.jpg".toList] "a.jpg".toList []
      [("a.jpg".toList, 5), ("a.jpg".toList, 6)] (by simp)).2.2.1,
   (resolveDestName_collision_free ["a.jpg".toList] "a.jpg".toList []
      [("a.jpg".toList, 5), ("a.jpg".toList, 6)] (by simp)).2.2.2.2⟩

theorem bump_isSome_of_mem {cs : List (String × Nat)} {key : String}
    (h : key ∈ cs.map Prod.fst) : ∃ cs', bump cs key = some cs' := by
  induction cs with
  | nil => simp at h
  | cons p rest ih =>
    obtain ⟨k, v⟩ := p
    by_cases hk : k = key
    · exact ⟨(k, v + 1) :: rest, by simp [bump, hk]⟩
    · have hmem : key ∈ rest.map Prod.fst := by
        have h' : key ∈ k :: rest.map Prod.fst := by
          simpa only [List.map_cons] using h
        rcases List.mem_cons.mp h' with h1 | h1
        · exact absurd h1.symm hk
        · exact h1
      obtain ⟨cs', hcs'⟩ := ih hmem
      exact ⟨(k, v) :: cs', by simp [bump, hk, hcs']⟩

theorem bump_keys {cs cs' : List (String × Nat)} {key : String}
    (h : bump cs key = some cs') : cs'.map Prod.fst = cs.map Prod.fst := by
  induction cs generalizing cs' with
  | nil => cases h
  | cons p rest ih =>
    obtain ⟨k, v⟩ := p
    simp only [bump] at h
    by_cases hk : k = key
    · rw [if_pos hk] at h
      injection h with h
      subst h
      simp
    · rw [if_neg hk] at h
      cases hb : bump rest key with
      | none => rw [hb] at h; cases h
      | some cs1 =>
        rw [hb] at h
        injection h with h
        subst h
        simp [ih hb]

theorem bump_getCount_self {cs cs' : List (String × Nat)} {key : String}
    (h : bump cs key = some cs') :
    getCount cs' key = getCount cs key + 1 := by
  induction cs generalizing cs' with
  | nil => cases h
  | cons p rest ih =>
    obtain ⟨k, v⟩ := p
    simp only [bump] at h
    by_cases hk : k = key
    · rw [if_pos hk] at h
      injection h with h
      subst h
      simp [getCount, hk]
    · rw [if_neg hk] at h
      cases hb : bump rest key with
      | none => rw [hb] at h; cases h
      | some cs1 =>
        rw [hb] at h
        injection h with h
        subst h
        simp [getCount, hk, ih hb]

theorem bump_getCount_other {cs cs' : List (String × Nat)} {key k2 : String}
    (h : bump cs key = some cs') (hne : k2 ≠ key) :
    getCount cs' k2 = getCount cs k2 := by
  induction cs generalizing cs' with
  | nil => cases h
  | cons p rest ih =>
    obtain ⟨k, v⟩ := p
    simp only [bump] at h
    by_cases hk : k = key
    · rw [if_pos hk] at h
      injection h with h
      subst h
      have : k ≠ k2 := by rw [hk]; exact fun hx => hne hx.symm
      simp [getCount, this]
    · rw [if_neg hk] at h
      cases hb : bump rest key with
      | none => rw [hb] at h; cases h
      | some cs1 =>
        rw [hb] at h
        injection h with h
        subst h
        by_cases hkk : k = k2
        · simp [getCount, hkk]
        · simp [getCount, hkk, ih hb]

theorem sumExclErrors_cons (k : String) (v : Nat) (rest : List (String × Nat)) :
    sumExclErrors ((k, v) :: rest) =
      (if k = "Errors" then 0 else v) + sumExclErrors rest := by
  by_cases hk : k = "Errors" <;>
    simp [sumExclErrors, hk, List.filter_cons]

theorem bump_sumExcl_errors {cs cs' : List (String × Nat)}
    (h : bump cs "Errors" = some cs') :
    sumExclErrors cs' = sumExclErrors cs := by
  induction cs generalizing cs' with
  | nil => cases h
  | cons p rest ih =>
    obtain ⟨k, v⟩ := p
    simp only [bump] at h
    by_cases hk : k = "Errors"
    · rw [if_pos hk] at h
      injection h with h
      subst h
      rw [sumExclErrors_cons, sumExclErrors_cons, if_pos hk, if_pos hk]
    · rw [if_neg hk] at h
      cases hb : bump rest "Errors" with
      | none => rw [hb] at h; cases h
      | some cs1 =>
        rw [hb] at h
        injection h with h
        subst h
        rw [sumExclErrors_cons, sumExclErrors_cons, ih hb]

theorem bump_sumExcl_other {cs cs' : List (String × Nat)} {key : String}
    (h : bump cs key = some cs') (hkey : key ≠ "Errors") :
    sumExclErrors cs' = sumExclErrors cs + 1 := by
  induction cs generalizing cs' with
  | nil => cases h
  | cons p rest ih =>
    obtain ⟨k, v⟩ := p
    simp only [bump] at h
    by_cases hk : k = key
    · rw [if_pos hk] at h
      injection h with h
      subst h
      have hke : ¬k = "Errors" := by rw [hk]; exact hkey
      rw [sumExclErrors_cons, sumExclErrors_cons, if_neg hke, if_neg hke]
      omega
    · rw [if_neg hk] at h
      cases hb : bump rest key with
      | none => rw [hb] at h; cases h
      | some cs1 =>
        rw [hb] at h
        injection h with h
        subst h
        rw [sumExclErrors_cons, sumExclErrors_cons, ih hb]
        omega

theorem category_for_extension_mem_or (ext : String)
    (t : List (String × List String)) :
    category_for_extension ext t = "Others" ∨
    category_for_extension ext t ∈ t.map Prod.fst := by
  induction t with
  | nil => exact Or.inl rfl
  | cons p rest ih =>
    obtain ⟨c, e⟩ := p
    simp only [category_for_extension]
    by_cases h : ext ∈ e
    · rw [if_pos h]
      exact Or.inr (by simp)
    · rw [if_neg h]
      rcases ih with h1 | h1
      · exact Or.inl h1
      · exact Or.inr (by simp [h1])

theorem classify_cases (name : List Char) :
    classify name ∈
      ["Images", "Documents", "Videos", "Audio", "Archives", "Code", "Others"] := by
  rcases category_for_extension_mem_or ⟨file_extension_lowercase name⟩
      build_category_map with h | h
  · unfold classify classifyWith
    rw [h]
    decide
  · unfold classify classifyWith
    have h' : category_for_extension ⟨file_extension_lowercase name⟩ build_category_map
        ∈ ["Images", "Documents", "Videos", "Audio", "Archives", "Code"] := by
      simpa [build_category_map] using h
    simp only [List.mem_cons, List.not_mem_nil, or_false] at h' ⊢
    tauto

theorem classify_ne_errors (name : List Char) : classify name ≠ "Errors" := by
  have h := classify_cases name
  simp only [List.mem_cons, List.not_mem_nil, or_false] at h
  rcases h with h|h|h|h|h|h|h <;> rw [h] <;> decide

theorem classify_mem_keys (name : List Char) :
    classify name ∈ initCounters.map Prod.fst := by
  have h := classify_cases name
  simp only [List.mem_cons, List.not_mem_nil, or_false] at h
  rcases h with h|h|h|h|h|h|h <;> rw [h] <;> decide

theorem processEntry_some (dry : Bool) (σ : RunState) (e : DirEntry)
    (hσ : goodKeys σ) :
    ∃ σ', processEntry dry σ e = some σ' ∧ goodKeys σ' := by
  have hErr : "Errors" ∈ σ.counters.map Prod.fst := by
    rw [hσ]; decide
  have hCat : ∀ name, classify name ∈ σ.counters.map Prod.fst := by
    intro name; rw [hσ]; exact classify_mem_keys name
  cases e with
  | readErr =>
    obtain ⟨cs', h⟩ := bump_isSome_of_mem hErr
    refine ⟨{ σ with counters := cs' }, by simp [processEntry, h], ?_⟩
    show cs'.map Prod.fst = initCounters.map Prod.fst
    rw [bump_keys h]
    exact hσ
  | typeErr =>
    obtain ⟨cs', h⟩ := bump_isSome_of_mem hErr
    refine ⟨{ σ with counters := cs' }, by simp [processEntry, h], ?_⟩
    show cs'.map Prod.fst = initCounters.map Prod.fst
    rw [bump_keys h]
    exact hσ
  | subdir => exact ⟨σ, rfl, hσ⟩
  | symlink => exact ⟨σ, rfl, hσ⟩
  | file name content fsOk =>
    cases dry with
    | true =>
      obtain ⟨cs', h⟩ := bump_isSome_of_mem (hCat name)
      refine ⟨{ σ with counters := cs' }, by simp [processEntry, h], ?_⟩
      show cs'.map Prod.fst = initCounters.map Prod.fst
      rw [bump_keys h]
      exact hσ
    | false =>
      cases fsOk with
      | true =>
        obtain ⟨cs', h⟩ := bump_isSome_of_mem (hCat name)
        refine ⟨{ σ with counters := cs', dirs := updateDirs σ.dirs (classify name) ((copy_file_to_category name content (σ.dirs (classify name))).2) }, ?_, ?_⟩
        · simp [processEntry, h]
        · show cs'.map Prod.fst = initCounters.map Prod.fst
          rw [bump_keys h]
          exact hσ
      | false =>
        obtain ⟨cs', h⟩ := bump_isSome_of_mem hErr
        refine ⟨{ σ with counters := cs' }, by simp [processEntry, h], ?_⟩
        show cs'.map Prod.fst = initCounters.map Prod.fst
        rw [bump_keys h]
        exact hσ

theorem runEntries_some (dry : Bool) (es : List DirEntry) :
    ∀ σ, goodKeys σ → ∃ σ', runEntries dry es σ = some σ' ∧ goodKeys σ' := by
  induction es with
  | nil => exact fun σ h => ⟨σ, rfl, h⟩
  | cons e rest ih =>
    intro σ h
    obtain ⟨σ1, h1, hg1⟩ := processEntry_some dry σ e h
    obtain ⟨σ', h', hg'⟩ := ih σ1 hg1
    exact ⟨σ', by simp [runEntries, h1, h'], hg'⟩

theorem runEntries_eq_runOrganize (dry : Bool) (es : List DirEntry)
    (d : String → List (List Char × Nat)) (r : List (List Char × Nat)) :
    runEntries dry es (initState d r) = some (runOrganize dry es d r) ∧
    goodKeys (runOrganize dry es d r) := by
  obtain ⟨σ', h, hg⟩ := runEntries_some dry es (initState d r) rfl
  constructor
  · rw [runOrganize, h]
    simp
  · rw [runOrganize, h]
    simpa using hg

/-- C9: the counters map is initialized with exactly the keys Images,
Documents, Videos, Audio, Archives, Code, Others, Errors; the classifier
always returns one of those keys; and every counter `unwrap` of the walk
succeeds: the loop always completes with a final state instead of
panicking. -/
theorem counters_never_panic :
    initCounters.map Prod.fst =
      ["Images", "Documents", "Videos", "Audio", "Archives", "Code",
       "Others", "Errors"] ∧
    (∀ name, classify name ∈ initCounters.map Prod.fst) ∧
    ∀ dry es d r, runEntries dry es (initState d r) = some (runOrganize dry es d r) :=
  ⟨rfl, classify_mem_keys,
   fun dry es d r => (runEntries_eq_runOrganize dry es d r).1⟩

theorem processEntry_sumExcl (dry : Bool) (σ σ1 : RunState) (e : DirEntry)
    (h : processEntry dry σ e = some σ1) :
    sumExclErrors σ1.counters = sumExclErrors σ.counters +
      (if e.counted dry then 1 else 0) := by
  cases e with
  | readErr =>
    cases hb : bump σ.counters "Errors" with
    | none => simp [processEntry, hb] at h
    | some cs' =>
      simp only [processEntry, hb, Option.map_some'] at h
      injection h with h
      subst h
      simpa [DirEntry.counted] using bump_sumExcl_errors hb
  | typeErr =>
    cases hb : bump σ.counters "Errors" with
    | none => simp [processEntry, hb] at h
    | some cs' =>
      simp only [processEntry, hb, Option.map_some'] at h
      injection h with h
      subst h
      simpa [DirEntry.counted] using bump_sumExcl_errors hb
  | subdir =>
    injection h with h
    subst h
    simp [DirEntry.counted]
  | symlink =>
    injection h with h
    subst h
    simp [DirEntry.counted]
  | file name content fsOk =>
    cases dry with
    | true =>
      cases hb : bump σ.counters (classify name) with
      | none => simp [processEntry, hb] at h
      | some cs' =>
        simp only [processEntry, if_pos rfl, hb, Option.map_some'] at h
        injection h with h
        subst h
        simpa [DirEntry.counted] using bump_sumExcl_other hb (classify_ne_errors name)
    | false =>
      cases fsOk with
      | true =>
        cases hb : bump σ.counters (classify name) with
        | none => simp [processEntry, hb] at h
        | some cs' =>
          simp only [processEntry, Bool.false_eq_true, if_false,
            hb, Option.map_some'] at h
          injection h with h
          subst h
          simpa [DirEntry.counted] using bump_sumExcl_other hb (classify_ne_errors name)
      | false =>
        cases hb : bump σ.counters "Errors" with
        | none => simp [processEntry, hb] at h
        | some cs' =>
          simp only [processEntry, Bool.false_eq_true, if_false,
            hb, Option.map_some'] at h
          injection h with h
          subst h
          simpa [DirEntry.counted] using bump_sumExcl_errors hb

theorem countedEntries_cons (dry : Bool) (e : DirEntry) (rest : List DirEntry) :
    countedEntries dry (e :: rest) =
      countedEntries dry rest + (if e.counted dry then 1 else 0) := by
  by_cases hc : e.counted dry = true <;>
    simp [countedEntries, List.filter_cons, hc]

theorem regularEntriesCount_cons (e : DirEntry) (rest : List DirEntry) :
    regularEntriesCount (e :: rest) =
      regularEntriesCount rest + (if e.isRegularFile then 1 else 0) := by
  by_cases hc : e.isRegularFile = true <;>
    simp [regularEntriesCount, List.filter_cons, hc]

theorem counted_true_eq_isRegularFile (e : DirEntry) :
    e.counted true = e.isRegularFile := by
  cases e <;> rfl

theorem runEntries_sumExcl (dry : Bool) (es : List DirEntry) :
    ∀ σ σ', runEntries dry es σ = some σ' →
    sumExclErrors σ'.counters = sumExclErrors σ.counters + countedEntries dry es := by
  induction es with
  | nil =>
    intro σ σ' h
    injection h with h
    subst h
    simp [countedEntries]
  | cons e rest ih =>
    intro σ σ' h
    cases h1 : processEntry dry σ e with
    | none => simp [runEntries, h1] at h
    | some σ1 =>
      simp only [runEntries, h1, Option.some_bind] at h
      have hrest := ih σ1 σ' h
      have hstep := processEntry_sumExcl dry σ σ1 e h1
      rw [hrest, hstep, countedEntries_cons]
      omega

/-- C4 (amended): at the end of a run, the sum of all category counters
excluding `"Errors"` equals the number of regular, non-symlink entries that
were counted into a category: all of them in dry-run mode, and those whose
directory creation and copy succeeded otherwise (a failed copy counts under
`"Errors"` instead).  In particular the sum equals the number of regular,
non-symlink entries directly inside the scan root whenever the run is a dry
run or no per-file filesystem operation fails. -/
theorem sum_counters_eq_counted (dry : Bool) (es : List DirEntry)
    (d : String → List (List Char × Nat)) (r : List (List Char × Nat)) :
    sumExclErrors (runOrganize dry es d r).counters = countedEntries dry es ∧
    countedEntries true es = regularEntriesCount es ∧
    ((∀ e ∈ es, ∀ n c, e = DirEntry.file n c false → False) →
      countedEntries dry es = regularEntriesCount es) := by
  refine ⟨?_, ?_, ?_⟩
  · obtain ⟨h, _⟩ := runEntries_eq_runOrganize dry es d r
    have hsum := runEntries_sumExcl dry es (initState d r) _ h
    have h0 : sumExclErrors initCounters = 0 := rfl
    rw [hsum]
    rw [show (initState d r).counters = initCounters from rfl, h0]
    omega
  · induction es with
    | nil => rfl
    | cons e rest ih =>
      rw [countedEntries_cons, regularEntriesCount_cons, ih,
        counted_true_eq_isRegularFile]
  · induction es with
    | nil => exact fun _ => rfl
    | cons e rest ih =>
      intro hok
      have hrest := ih fun x hx n c hc => hok x (List.mem_cons_of_mem _ hx) n c hc
      rw [countedEntries_cons, regularEntriesCount_cons, hrest]
      congr 1
      cases e with
      | file n c ok =>
        cases ok with
        | true => simp [DirEntry.counted, DirEntry.isRegularFile]
        | false => exact (hok _ (List.mem_cons_self _ _) n c rfl).elim
      | readErr => simp [DirEntry.counted, DirEntry.isRegularFile]
      | typeErr => simp [DirEntry.counted, DirEntry.isRegularFile]
      | subdir => simp [DirEntry.counted, DirEntry.isRegularFile]
      | symlink => simp [DirEntry.counted, DirEntry.isRegularFile]

/-- Witness for C4 (amended) at a concrete input: one successfully copied
`"a.jpg"` gives category sum 1 = number of regular entries. -/
theorem sum_counters_eq_counted_witness :
    sumExclErrors (runOrganize false [DirEntry.file "a.jpg".toList 3 true]
      (fun _ => []) []).counters = countedEntries false [DirEntry.file "a.jpg".toList 3 true] ∧
    countedEntries false [DirEntry.file "a.jpg".toList 3 true]
      = regularEntriesCount [DirEntry.file "a.jpg".toList 3 true] :=
  ⟨(sum_counters_eq_counted false [DirEntry.file "a.jpg".toList 3 true]
      (fun _ => []) []).1,
   (sum_counters_eq_counted false [DirEntry.file "a.jpg".toList 3 true]
      (fun _ => []) []).2.2
      (by intro e he n c hc; fin_cases he; simp at hc)⟩

/-- Counterexample to C4 as stated: a run over a single regular file whose
copy fails ends with all category counters 0 (the failure is counted under
`"Errors"`), while the scan root holds 1 regular, non-symlink entry. -/
theorem sum_counters_counterexample :
    ¬(sumExclErrors (runOrganize false [DirEntry.file "a.jpg".toList 3 false]
        (fun _ => []) []).counters
      = regularEntriesCount [DirEntry.file "a.jpg".toList 3 false]) := by
  decide

theorem processEntry_dry (σ σ1 : RunState) (e : DirEntry)
    (h : processEntry true σ e = some σ1) :
    σ1.dirs = σ.dirs ∧ σ1.root = σ.root := by
  cases e with
  | readErr =>
    cases hb : bump σ.counters "Errors" with
    | none => simp [processEntry, hb] at h
    | some cs' =>
      simp only [processEntry, hb, Option.map_some'] at h
      injection h with h
      subst h
      exact ⟨rfl, rfl⟩
  | typeErr =>
    cases hb : bump σ.counters "Errors" with
    | none => simp [processEntry, hb] at h
    | some cs' =>
      simp only [processEntry, hb, Option.map_some'] at h
      injection h with h
      subst h
      exact ⟨rfl, rfl⟩
  | subdir =>
    injection h with h
    subst h
    exact ⟨rfl, rfl⟩
  | symlink =>
    injection h with h
    subst h
    exact ⟨rfl, rfl⟩
  | file name content fsOk =>
    cases hb : bump σ.counters (classify name) with
    | none => simp [processEntry, hb] at h
    | some cs' =>
      simp only [processEntry, if_pos rfl, hb, Option.map_some'] at h
      injection h with h
      subst h
      exact ⟨rfl, rfl⟩

theorem processEntry_root (dry : Bool) (σ σ1 : RunState) (e : DirEntry)
    (h : processEntry dry σ e = some σ1) : σ1.root = σ.root := by
  cases e with
  | readErr =>
    cases hb : bump σ.counters "Errors" with
    | none => simp [processEntry, hb] at h
    | some cs' =>
      simp only [processEntry, hb, Option.map_some'] at h
      injection h with h
      subst h
      rfl
  | typeErr =>
    cases hb : bump σ.counters "Errors" with
    | none => simp [processEntry, hb] at h
    | some cs' =>
      simp only [processEntry, hb, Option.map_some'] at h
      injection h with h
      subst h
      rfl
  | subdir =>
    injection h with h
    subst h
    rfl
  | symlink =>
    injection h with h
    subst h
    rfl
  | file name content fsOk =>
    cases dry with
    | true =>
      cases hb : bump σ.counters (classify name) with
      | none => simp [processEntry, hb] at h
      | some cs' =>
        simp only [processEntry, if_pos rfl, hb, Option.map_some'] at h
        injection h with h
        subst h
        rfl
    | false =>
      cases fsOk with
      | true =>
        cases hb : bump σ.counters (classify name) with
        | none => simp [processEntry, hb] at h
        | some cs' =>
          simp only [processEntry, Bool.false_eq_true, if_false, hb,
            Option.map_some'] at h
          injection h with h
          subst h
          rfl
      | false =>
        cases hb : bump σ.counters "Errors" with
        | none => simp [processEntry, hb] at h
        | some cs' =>
          simp only [processEntry, Bool.false_eq_true, if_false, hb,
            Option.map_some'] at h
          injection h with h
          subst h
          rfl

theorem processEntry_dirs_mono (dry : Bool) (σ σ1 : RunState) (e : DirEntry)
    (h : processEntry dry σ e = some σ1) (c : String) (x : List Char × Nat)
    (hx : x ∈ σ.dirs c) : x ∈ σ1.dirs c := by
  cases e with
  | readErr =>
    cases hb : bump σ.counters "Errors" with
    | none => simp [processEntry, hb] at h
    | some cs' =>
      simp only [processEntry, hb, Option.map_some'] at h
      injection h with h
      subst h
      exact hx
  | typeErr =>
    cases hb : bump σ.counters "Errors" with
    | none => simp [processEntry, hb] at h
    | some cs' =>
      simp only [processEntry, hb, Option.map_some'] at h
      injection h with h
      subst h
      exact hx
  | subdir =>
    injection h with h
    subst h
    exact hx
  | symlink =>
    injection h with h
    subst h
    exact hx
  | file name content fsOk =>
    cases dry with
    | true =>
      cases hb : bump σ.counters (classify name) with
      | none => simp [processEntry, hb] at h
      | some cs' =>
        simp only [processEntry, if_pos rfl, hb, Option.map_some'] at h
        injection h with h
        subst h
        exact hx
    | false =>
      cases fsOk with
      | true =>
        cases hb : bump σ.counters (classify name) with
        | none => simp [processEntry, hb] at h
        | some cs' =>
          simp only [processEntry, Bool.false_eq_true, if_false, hb,
            Option.map_some'] at h
          injection h with h
          subst h
          show x ∈ updateDirs σ.dirs (classify name) _ c
          unfold updateDirs
          by_cases hc : c = classify name
          · rw [if_pos hc]
            subst hc
            exact List.mem_append_left _ hx
          · rw [if_neg hc]
            exact hx
      | false =>
        cases hb : bump σ.counters "Errors" with
        | none => simp [processEntry, hb] at h
        | some cs' =>
          simp only [processEntry, Bool.false_eq_true, if_false, hb,
            Option.map_some'] at h
          injection h with h
          subst h
          exact hx

theorem runEntries_dry_frame (es : List DirEntry) :
    ∀ σ σ', runEntries true es σ = some σ' →
    σ'.dirs = σ.dirs ∧ σ'.root = σ.root := by
  induction es with
  | nil =>
    intro σ σ' h
    injection h with h
    subst h
    exact ⟨rfl, rfl⟩
  | cons e rest ih =>
    intro σ σ' h
    cases h1 : processEntry true σ e with
    | none => simp [runEntries, h1] at h
    | some σ1 =>
      simp only [runEntries, h1, Option.some_bind] at h
      obtain ⟨hd1, hr1⟩ := processEntry_dry σ σ1 e h1
      obtain ⟨hd2, hr2⟩ := ih σ1 σ' h
      exact ⟨hd2.trans hd1, hr2.trans hr1⟩

theorem runEntries_root (dry : Bool) (es : List DirEntry) :
    ∀ σ σ', runEntries dry es σ = some σ' → σ'.root = σ.root := by
  induction es with
  | nil =>
    intro σ σ' h
    injection h with h
    subst h
    rfl
  | cons e rest ih =>
    intro σ σ' h
    cases h1 : processEntry dry σ e with
    | none => simp [runEntries, h1] at h
    | some σ1 =>
      simp only [runEntries, h1, Option.some_bind] at h
      exact (ih σ1 σ' h).trans (processEntry_root dry σ σ1 e h1)

theorem runEntries_dirs_mono (dry : Bool) (es : List DirEntry) :
    ∀ σ σ' c x, runEntries dry es σ = some σ' → x ∈ σ.dirs c → x ∈ σ'.dirs c := by
  induction es with
  | nil =>
    intro σ σ' c x h hx
    injection h with h
    subst h
    exact hx
  | cons e rest ih =>
    intro σ σ' c x h hx
    cases h1 : processEntry dry σ e with
    | none => simp [runEntries, h1] at h
    | some σ1 =>
      simp only [runEntries, h1, Option.some_bind] at h
      exact ih σ1 σ' c x h (processEntry_dirs_mono dry σ σ1 e h1 c x hx)

theorem processEntry_file_copied (σ σ1 : RunState) (name : List Char)
    (content : Nat)
    (h : processEntry false σ (.file name content true) = some σ1) :
    ∃ dest, (dest, content) ∈ σ1.dirs (classify name) := by
  cases hb : bump σ.counters (classify name) with
  | none => simp [processEntry, hb] at h
  | some cs' =>
    simp only [processEntry, Bool.false_eq_true, if_false, hb,
      Option.map_some'] at h
    injection h with h
    subst h
    refine ⟨resolveDestName ((σ.dirs (classify name)).map Prod.fst) name, ?_⟩
    show _ ∈ updateDirs σ.dirs (classify name) _ (classify name)
    unfold updateDirs
    rw [if_pos rfl]
    simp [copy_file_to_category]

theorem runEntries_copied (es : List DirEntry) :
    ∀ σ σ', runEntries false es σ = some σ' →
    ∀ name content, DirEntry.file name content true ∈ es →
    ∃ dest, (dest, content) ∈ σ'.dirs (classify name) := by
  induction es with
  | nil =>
    intro σ σ' _ name content hmem
    simp at hmem
  | cons e rest ih =>
    intro σ σ' h name content hmem
    cases h1 : processEntry false σ e with
    | none => simp [runEntries, h1] at h
    | some σ1 =>
      simp only [runEntries, h1, Option.some_bind] at h
      rcases List.mem_cons.mp hmem with heq | htail
      · subst heq
        obtain ⟨dest, hdest⟩ := processEntry_file_copied σ σ1 name content h1
        exact ⟨dest, runEntries_dirs_mono false rest σ1 σ' _ _ h hdest⟩
      · exact ih σ1 σ' h name content htail

/-- C5: a dry run never creates a directory or file and never modifies the
scan root: the category directories and the root's files are exactly the
initial ones; and running the same dry-run again on the unchanged directory
produces identical counters. -/
theorem dry_run_frame (es : List DirEntry)
    (d : String → List (List Char × Nat)) (r : List (List Char × Nat)) :
    (runOrganize true es d r).dirs = d ∧
    (runOrganize true es d r).root = r ∧
    (runOrganize true es (runOrganize true es d r).dirs
        (runOrganize true es d r).root).counters
      = (runOrganize true es d r).counters := by
  obtain ⟨h, _⟩ := runEntries_eq_runOrganize true es d r
  obtain ⟨hd, hr⟩ := runEntries_dry_frame es (initState d r) _ h
  refine ⟨hd, hr, ?_⟩
  rw [hd, hr]
  rfl

/-- C6: after a non-dry run every original file directly inside the scan
root still exists unchanged (the program copies and never moves), and each
successfully copied file has a copy with byte-identical content in its
category subdirectory. -/
theorem copy_preserves_originals (es : List DirEntry)
    (d : String → List (List Char × Nat)) (r : List (List Char × Nat)) :
    (runOrganize false es d r).root = r ∧
    ∀ name content, DirEntry.file name content true ∈ es →
      ∃ dest, (dest, content) ∈ (runOrganize false es d r).dirs (classify name) := by
  obtain ⟨h, _⟩ := runEntries_eq_runOrganize false es d r
  exact ⟨runEntries_root false es _ _ h,
    fun name content hm => runEntries_copied es _ _ h name content hm⟩

/-- Witness for C6 at a concrete input: copying `"a.jpg"` with content 7
leaves a copy with content 7 in the `"Images"` directory. -/
theorem copy_preserves_originals_witness :
    ∃ dest, (dest, 7) ∈ (runOrganize false [DirEntry.file "a.jpg".toList 7 true]
      (fun _ => []) []).dirs (classify "a.jpg".toList) :=
  (copy_preserves_originals [DirEntry.file "a.jpg".toList 7 true]
    (fun _ => []) []).2 "a.jpg".toList 7 (by simp)

/-- C7: a per-entry failure (iterator error, file-type error, or failed
directory creation / copy outside dry-run) is recoverable: the walker
increments exactly the `"Errors"` counter, changes nothing else in the
state, and continues with the remaining entries exactly as it would from
that state — one file's failure never aborts the run. -/
theorem per_entry_failure_recoverable (dry : Bool) (e : DirEntry)
    (es : List DirEntry) (σ : RunState) (hσ : goodKeys σ)
    (hfail : failingEntry dry e) :
    ∃ cs', bump σ.counters "Errors" = some cs' ∧
      processEntry dry σ e = some { σ with counters := cs' } ∧
      runEntries dry (e :: es) σ = runEntries dry es { σ with counters := cs' } ∧
      getCount cs' "Errors" = getCount σ.counters "Errors" + 1 ∧
      (∀ k, ¬k = "Errors" → getCount cs' k = getCount σ.counters k) := by
  have hErr : "Errors" ∈ σ.counters.map Prod.fst := by
    rw [hσ]; decide
  obtain ⟨cs', hb⟩ := bump_isSome_of_mem hErr
  have hpe : processEntry dry σ e = some { σ with counters := cs' } := by
    rcases hfail with rfl | rfl | ⟨n, c, rfl, rfl⟩
    · simp [processEntry, hb]
    · simp [processEntry, hb]
    · simp [processEntry, hb]
  refine ⟨cs', hb, hpe, ?_, bump_getCount_self hb,
    fun k hk => bump_getCount_other hb hk⟩
  simp [runEntries, hpe]

/-- Witness for C7 at a concrete input: a file-type failure as first entry
bumps only `"Errors"` and the walk continues. -/
theorem per_entry_failure_recoverable_witness :
    ∃ cs', bump (initState (fun _ => []) []).counters "Errors" = some cs' ∧
      processEntry false (initState (fun _ => []) []) DirEntry.typeErr
        = some { initState (fun _ => []) [] with counters := cs' } ∧
      runEntries false [DirEntry.typeErr] (initState (fun _ => []) [])
        = runEntries false [] { initState (fun _ => []) [] with counters := cs' } ∧
      getCount cs' "Errors"
        = getCount (initState (fun _ => []) []).counters "Errors" + 1 ∧
      (∀ k, ¬k = "Errors" →
        getCount cs' k = getCount (initState (fun _ => []) []).counters k) :=
  per_entry_failure_recoverable false DirEntry.typeErr [] (initState (fun _ => []) [])
    rfl (Or.inr (Or.inl rfl))

theorem folderArg_none_iff (args : List String) :
    folderArg args = none ↔ args.length < 2 := by
  constructor
  · intro h
    have := List.getElem?_eq_none_iff.mp h
    omega
  · intro h
    exact List.getElem?_eq_none_iff.mpr (by omega)

/-- C8: `main` terminates with exit status 1 exactly in the fatal cases —
missing folder argument (after the usage text on standard output), failed
canonicalization or a path that is not a directory (after an error on
standard error), or failure to enumerate the directory — and in every such
case the specific pre-walk exit is taken and nothing has been organized:
the category directories and the root's files are untouched. -/
theorem exit_one_iff_fatal (env : Env) :
    (exitCode (mainRun env) = 1 ↔
      env.args.length < 2 ∨
      (∃ f, folderArg env.args = some f ∧
        (env.canonicalize f = none ∨
          (∃ c, env.canonicalize f = some c ∧
            (env.isDir c = false ∨ env.readDir c = none))))) ∧
    (exitCode (mainRun env) = 1 →
      finalDirs env = env.dirs0 ∧ finalRoot env = env.root0) ∧
    (env.args.length < 2 → mainRun env = .usage) ∧
    (∀ f, folderArg env.args = some f → env.canonicalize f = none →
      mainRun env = .invalidPath) ∧
    (∀ f c, folderArg env.args = some f → env.canonicalize f = some c →
      env.isDir c = false → mainRun env = .notDirectory) ∧
    (∀ f c, folderArg env.args = some f → env.canonicalize f = some c →
      env.isDir c = true → env.readDir c = none → mainRun env = .readDirFailed) := by
  cases hf : folderArg env.args with
  | none =>
    have hlen : env.args.length < 2 := (folderArg_none_iff env.args).mp hf
    have hm : mainRun env = .usage := by
      simp [mainRun, hf]
    refine ⟨?_, ?_, fun _ => hm, ?_, ?_, ?_⟩
    · simp [hm, exitCode, hlen]
    · intro _
      exact ⟨by simp [finalDirs, hm], by simp [finalRoot, hm]⟩
    · intro f hsome
      cases hsome
    · intro f c hsome
      cases hsome
    · intro f c hsome
      cases hsome
  | some f =>
    have hlen : ¬env.args.length < 2 := by
      intro h
      rw [(folderArg_none_iff env.args).mpr h] at hf
      cases hf
    cases hc : env.canonicalize f with
    | none =>
      have hm : mainRun env = .invalidPath := by
        simp [mainRun, hf, hc]
      refine ⟨?_, ?_, fun h => absurd h hlen, fun f2 h2 _ => hm, ?_, ?_⟩
      · simp [hm, exitCode, hlen, hc]
      · intro _
        exact ⟨by simp [finalDirs, hm], by simp [finalRoot, hm]⟩
      · intro f2 c h2 hc2
        injection h2 with h2
        subst h2
        rw [hc] at hc2
        cases hc2
      · intro f2 c h2 hc2
        injection h2 with h2
        subst h2
        rw [hc] at hc2
        cases hc2
    | some canon =>
      cases hd : env.isDir canon with
      | false =>
        have hm : mainRun env = .notDirectory := by
          simp [mainRun, hf, hc, hd]
        refine ⟨?_, ?_, fun h => absurd h hlen, ?_,
          fun f2 c h2 hc2 _ => hm, ?_⟩
        · simp [hm, exitCode, hlen, hc, hd]
        · intro _
          exact ⟨by simp [finalDirs, hm], by simp [finalRoot, hm]⟩
        · intro f2 h2 hc2
          injection h2 with h2
          subst h2
          rw [hc] at hc2
          cases hc2
        · intro f2 c h2 hc2 hd2
          injection h2 with h2
          subst h2
          rw [hc] at hc2
          injection hc2 with hc2
          subst hc2
          rw [hd] at hd2
          cases hd2
      | true =>
        cases hr : env.readDir canon with
        | none =>
          have hm : mainRun env = .readDirFailed := by
            simp [mainRun, hf, hc, hd, hr]
          refine ⟨?_, ?_, fun h => absurd h hlen, ?_, ?_,
            fun f2 c h2 hc2 _ _ => hm⟩
          · simp [hm, exitCode, hlen, hc, hd, hr]
          · intro _
            exact ⟨by simp [finalDirs, hm], by simp [finalRoot, hm]⟩
          · intro f2 h2 hc2
            injection h2 with h2
            subst h2
            rw [hc] at hc2
            cases hc2
          · intro f2 c h2 hc2 hd2
            injection h2 with h2
            subst h2
            rw [hc] at hc2
            injection hc2 with hc2
            subst hc2
            rw [hd] at hd2
            cases hd2
        | some es =>
          have hm : mainRun env = .completed
              (runOrganize (dryFlag env.args) es env.dirs0 env.root0) := by
            simp [mainRun, hf, hc, hd, hr]
          refine ⟨?_, ?_, fun h => absurd h hlen, ?_, ?_, ?_⟩
          · simp [hm, exitCode, hlen, hc, hd, hr]
          · intro h
            rw [hm] at h
            cases h
          · intro f2 h2 hc2
            injection h2 with h2
            subst h2
            rw [hc] at hc2
            cases hc2
          · intro f2 c h2 hc2 hd2
            injection h2 with h2
            subst h2
            rw [hc] at hc2
            injection hc2 with hc2
            subst hc2
            rw [hd] at hd2
            cases hd2
          · intro f2 c h2 hc2 hd2 hr2
            injection h2 with h2
            subst h2
            rw [hc] at hc2
            injection hc2 with hc2
            subst hc2
            rw [hr] at hr2
            cases hr2

/-- Witness for C8 at a concrete input: a missing folder argument exits
with status 1 through the usage path. -/
theorem exit_one_iff_fatal_witness :
    exitCode (mainRun usageEnv) = 1 ∧ mainRun usageEnv = .usage :=
  ⟨(exit_one_iff_fatal usageEnv).1.mpr (Or.inl (by decide)),
   (exit_one_iff_fatal usageEnv).2.2.1 (by decide)⟩

/-- C10: dry-run mode is enabled exactly when some element of the whole
argument vector equals `"--dry-run"` or `"-n"`, regardless of position; the
folder path is always `args[1]`, so a flag placed at position 1 is honored
as the flag while that same string is used as the path handed to
`fs::canonicalize`. -/
theorem dry_flag_position_independent (args : List String) :
    (dryFlag args = true ↔ ∃ a ∈ args, a = "--dry-run" ∨ a = "-n") ∧
    (∀ prog rest flag, flag = "--dry-run" ∨ flag = "-n" →
      folderArg (prog :: flag :: rest) = some flag ∧
      dryFlag (prog :: flag :: rest) = true) ∧
    (∀ env : Env, ∀ prog rest, env.args = prog :: "-n" :: rest →
      env.canonicalize "-n" = none → mainRun env = .invalidPath) := by
  refine ⟨?_, ?_, ?_⟩
  · simp [dryFlag, List.any_eq_true]
  · intro prog rest flag hflag
    refine ⟨by simp [folderArg], ?_⟩
    rcases hflag with rfl | rfl <;> simp [dryFlag]
  · intro env prog rest hargs hcanon
    have hfold : folderArg env.args = some "-n" := by
      rw [hargs]
      simp [folderArg]
    simp [mainRun, hfold, hcanon]

/-- Witness for C10 at a concrete input: in `prog -n`, dry-run mode is on
and the folder-path argument is the string `"-n"` itself. -/
theorem dry_flag_position_independent_witness :
    folderArg ["file_organizer", "-n"] = some "-n" ∧
    dryFlag ["file_organizer", "-n"] = true :=
  (dry_flag_position_independent ["file_organizer", "-n"]).2.1
    "file_organizer" [] "-n" (Or.inr rfl)

end FileOrganizer
